import Mathlib

/-!
Verification of the watchlist alert monitoring engine of the TWSE stock
dashboard (front-end module in `app/static/script.js`).

The engine consists of:
* `WatchlistManager` — the durable collection of watch items
  (`add`, `remove`, `update`, `get`, `getAll`, `resetTriggered`);
* `WatchlistPolling` — the market-hours-aware polling scheduler
  (`isMarketHours`, `start`, `check`, `checkAlerts`, `notify`, `stop`).

Every definition below is a direct shallow embedding of the corresponding
JavaScript function.  JS numbers are modelled as `ℚ`, JS arrays as `List`,
the trigger-ledger strings (`` `${alert.type}_${index}` ``) as `String`
values built with `Nat.repr`, and the fallible quote fetch as an
`Except Unit (List Stock)` input.  Definitions whose doc comment begins
with "Claim-side:" are transcriptions of the specification's words,
written only to be compared against the code-derived definitions.
-/

/-- The five alert kinds of the `ALERT_TYPES` table / `checkAlerts` switch. -/
inductive AlertType where
  | price_above
  | price_below
  | change_percent_above
  | change_percent_below
  | bid_ask_ratio_above
deriving DecidableEq

/-- The JS string value stored in `alert.type`. -/
def AlertType.str : AlertType → String
  | .price_above => "price_above"
  | .price_below => "price_below"
  | .change_percent_above => "change_percent_above"
  | .change_percent_below => "change_percent_below"
  | .bid_ask_ratio_above => "bid_ask_ratio_above"

/-- One alert rule: `{ type, value, enabled }` as collected by the UI. -/
structure Alert where
  type : AlertType
  value : ℚ
  enabled : Bool
deriving DecidableEq

/-- A watch item as created by `WatchlistManager.add`. -/
structure WatchItem where
  id : String
  stock_code : String
  stock_name : String
  alerts : List Alert
  triggered : List String
  created_at : String
deriving DecidableEq

/-- A quote row returned by `/api/watchlist/check` (read-only input). -/
structure Stock where
  code : String
  price : ℚ
  change_percent : ℚ
  bid_ask_ratio : ℚ
deriving DecidableEq

/-- The `stock` argument passed to `WatchlistManager.add` (`{code, name}`). -/
structure StockRef where
  code : String
  name : String
deriving DecidableEq

/-- The ledger key `` `${alert.type}_${index}` `` pushed by `checkAlerts`. -/
def alertKey (t : AlertType) (i : Nat) : String :=
  t.str ++ "_" ++ Nat.repr i

/-! ### Decimal representation of `Nat`

`alertKey` embeds the rule's positional index via JS number-to-string
conversion, i.e. `Nat.repr`.  The dedup arguments need that two keys with
different indices are different strings, so we prove `Nat.repr` injective
and that its digits never contain the separator `'_'`. -/

/-- The decimal digit list of `n`, most significant digit first.  This is
the reference function `Nat.toDigitsCore` computes. -/
def repDigits (n : Nat) : List Char :=
  if n < 10 then [Nat.digitChar n]
  else repDigits (n / 10) ++ [Nat.digitChar (n % 10)]
decreasing_by
  exact Nat.div_lt_self (by omega) (by omega)

/-- Evaluating a digit list back to the number it denotes. -/
def digitsVal (l : List Char) : Nat :=
  l.foldl (fun a c => 10 * a + (c.toNat - 48)) 0

/-! ### The alert evaluator — `WatchlistPolling.checkAlerts`

The JS loop walks `item.alerts` with its index, skips disabled rules,
skips rules whose ledger key is already in `item.triggered`, and for each
remaining rule whose condition holds it calls `notify(...)` and pushes the
key onto `item.triggered`.  The membership test reads the *current*
(already extended) ledger, so the embedding threads the ledger through the
loop. -/

/-- The switch on `alert.type`: does the rule's condition hold? -/
def condHolds (a : Alert) (s : Stock) : Bool :=
  match a.type with
  | .price_above => a.value ≤ s.price
  | .price_below => s.price ≤ a.value
  | .change_percent_above => a.value ≤ s.change_percent
  | .change_percent_below => s.change_percent ≤ a.value
  | .bid_ask_ratio_above => a.value ≤ s.bid_ask_ratio

/-- The `actualValue` the switch records for the notification body. -/
def actualValue (a : Alert) (s : Stock) : ℚ :=
  match a.type with
  | .price_above => s.price
  | .price_below => s.price
  | .change_percent_above => s.change_percent
  | .change_percent_below => s.change_percent
  | .bid_ask_ratio_above => s.bid_ask_ratio

/-- The loop body of `checkAlerts`, threading the mutable ledger.  Returns
the final ledger and the sequence of `notify` calls, each recorded as
`(index, alert, actualValue)` — the loop index identifies which rule the
call was for (it is also what the pushed ledger key encodes). -/
def checkAlertsAux (s : Stock) :
    List Alert → Nat → List String → List String × List (Nat × Alert × ℚ)
  | [], _, trig => (trig, [])
  | a :: rest, i, trig =>
    if a.enabled = false then checkAlertsAux s rest (i + 1) trig
    else if alertKey a.type i ∈ trig then checkAlertsAux s rest (i + 1) trig
    else if condHolds a s then
      let r := checkAlertsAux s rest (i + 1) (trig ++ [alertKey a.type i])
      (r.1, (i, a, actualValue a s) :: r.2)
    else checkAlertsAux s rest (i + 1) trig

/-- `WatchlistPolling.checkAlerts(item, stock)`: the updated item together
with the `notify` calls it made. -/
def checkAlerts (item : WatchItem) (s : Stock) :
    WatchItem × List (Nat × Alert × ℚ) :=
  let r := checkAlertsAux s item.alerts 0 item.triggered
  ({ item with triggered := r.1 }, r.2)

/-- The rule indices `checkAlerts` notified for, in emission order. -/
def firedIdx (item : WatchItem) (s : Stock) : List Nat :=
  (checkAlerts item s).2.map (fun p => p.1)

/-- Claim-side: the evaluator contract of the spec — the `(index, rule)`
pairs that are enabled, not yet in the ledger as given, and whose
condition holds, in order.  This reads the *initial* ledger `trig`, unlike
the loop, which reads the threaded one. -/
def firedPairs (s : Stock) : List Alert → Nat → List String → List (Nat × Alert)
  | [], _, _ => []
  | a :: rest, i, trig =>
    if a.enabled = true ∧ alertKey a.type i ∉ trig ∧ condHolds a s = true then
      (i, a) :: firedPairs s rest (i + 1) trig
    else firedPairs s rest (i + 1) trig

/-! ### The store — `WatchlistManager`

The manager owns `this.watchlist`, an array of items persisted to
`localStorage` on every mutation.  Persistence itself (`save`/`load`) is
an external effect; the embedding models the in-memory array, which every
mutating method updates before saving. -/

/-- `WatchlistManager.add(stock, alerts)`.  The generated id
(`` `watch_${Date.now()}_${random}` ``) and `new Date().toISOString()` are
environment-supplied values, passed in as arguments.  `alerts || []`
turns a missing argument into the empty list.  Returns the new store and
the created item. -/
def WatchlistManager.add (newId createdAt : String) (stock : StockRef)
    (alerts : Option (List Alert)) (wl : List WatchItem) :
    List WatchItem × WatchItem :=
  let item : WatchItem :=
    { id := newId
      stock_code := stock.code
      stock_name := stock.name
      alerts := alerts.getD []
      triggered := []
      created_at := createdAt }
  (wl ++ [item], item)

/-- `WatchlistManager.remove(id)`: `filter(item => item.id !== id)`. -/
def WatchlistManager.remove (id : String) (wl : List WatchItem) : List WatchItem :=
  wl.filter (fun item => item.id ≠ id)

/-- `WatchlistManager.update(id, alerts)`: `find` the first item with the
given id and replace its `alerts` in place; no-op when the id is unknown.
`triggered` is not touched. -/
def WatchlistManager.update (id : String) (alerts : List Alert) :
    List WatchItem → List WatchItem
  | [] => []
  | item :: rest =>
    if item.id = id then { item with alerts := alerts } :: rest
    else item :: WatchlistManager.update id alerts rest

/-- `WatchlistManager.get(id)`: `find(w => w.id === id)`. -/
def WatchlistManager.get (id : String) (wl : List WatchItem) : Option WatchItem :=
  wl.find? (fun w => w.id = id)

/-- `WatchlistManager.getAll()`: returns the array itself. -/
def WatchlistManager.getAll (wl : List WatchItem) : List WatchItem :=
  wl

/-- `WatchlistManager.resetTriggered()`: clears `triggered` on every item. -/
def WatchlistManager.resetTriggered (wl : List WatchItem) : List WatchItem :=
  wl.map (fun item => { item with triggered := [] })

/-! ### The scheduler — `WatchlistPolling` -/

/-- `WatchlistPolling.isMarketHours()`: reads `getDay()`, `getHours()`,
`getMinutes()` of the local clock (seconds are never read).  Sunday is
day 0, Monday 1, …, Saturday 6. -/
def isMarketHours (day hour minute : Nat) : Bool :=
  if 1 ≤ day ∧ day ≤ 5 then
    if (hour = 9 ∧ 0 ≤ minute) ∨ (10 ≤ hour ∧ hour < 13) ∨ (hour = 13 ∧ minute ≤ 30)
    then true else false
  else false

/-- The status strings published via `updateStatusDisplay`. -/
inductive Status where
  | noItems
  | nonTrading
  | running
  | checkFailed
  | stopped
deriving DecidableEq

/-- One `notify(item.stock_name, alert, actualValue, stock)` call, tagged
with the rule's loop index (the index also determines the pushed key). -/
structure NotifyCall where
  stock_name : String
  alert : Alert
  actual : ℚ
  stock : Stock
  index : Nat
deriving DecidableEq

/-- The inner fan-out of `check`: for one quote row, run `checkAlerts` on
every item whose `stock_code` matches
(`watchlist.filter(w => w.stock_code === stock.code)`), leaving the other
items untouched. -/
def applyStock (s : Stock) : List WatchItem → List WatchItem × List NotifyCall
  | [] => ([], [])
  | item :: rest =>
    let hd :=
      if item.stock_code = s.code then
        let r := checkAlerts item s
        (r.1, r.2.map (fun p => NotifyCall.mk item.stock_name p.2.1 p.2.2 s p.1))
      else (item, [])
    let tl := applyStock s rest
    (hd.1 :: tl.1, hd.2 ++ tl.2)

/-- `stocks.forEach(...)` over the whole quote batch, in response order. -/
def applyStocks (stocks : List Stock) (wl : List WatchItem) :
    List WatchItem × List NotifyCall :=
  match stocks with
  | [] => (wl, [])
  | s :: rest =>
    let r := applyStock s wl
    let r' := applyStocks rest r.1
    (r'.1, r.2 ++ r'.2)

/-- Result of one `WatchlistPolling.check()` pass: the watchlist after the
pass, the published status, the code list of the single batched quote
request (`none` when no request was issued), and the notifications. -/
structure CheckResult where
  items : List WatchItem
  status : Status
  request : Option (List String)
  notifs : List NotifyCall
deriving DecidableEq

/-- `WatchlistPolling.check()`.  The quote fetch is the only effectful
input: `Except.error` models a thrown/failed
`fetch('/api/watchlist/check?codes=...')`, `Except.ok stocks` a parsed
response.  The code list is `watchlist.map(item => item.stock_code)` —
the JS does not deduplicate it. -/
def check (wl : List WatchItem) (fetch : Except Unit (List Stock)) : CheckResult :=
  if wl.length = 0 then
    { items := wl, status := .noItems, request := none, notifs := [] }
  else
    let codes := wl.map (fun item => item.stock_code)
    match fetch with
    | .error _ =>
      { items := wl, status := .checkFailed, request := some codes, notifs := [] }
    | .ok stocks =>
      let r := applyStocks stocks wl
      { items := r.1, status := .running, request := some codes, notifs := r.2 }

/-! ### Timer-level trace model

`start()` arms a 30-second interval whose tick runs `check()` when
`isMarketHours()` holds; `check` is `async`, and its `await fetch` is the
suspension point.  The trace model counts fetches that have been started
and not yet completed (`inFlight`); nothing in `start`/`check` reads that
count, so nothing stops a tick from starting a fetch while another is
outstanding. -/

structure Poller where
  items : List WatchItem
  isRunning : Bool
  intervalArmed : Bool
  inFlight : Nat
  status : Option Status
deriving DecidableEq

/-- Begin one `check()` call up to its suspension point: publish the idle
status when the watchlist is empty, otherwise start a fetch. -/
def beginCheck (p : Poller) : Poller :=
  if p.items.length = 0 then { p with status := some .noItems }
  else { p with inFlight := p.inFlight + 1 }

/-- Events the timer/network environment can deliver. -/
inductive Ev where
  | start
  | tick (marketHours : Bool)
  | fetchOk (stocks : List Stock)
  | fetchErr
  | stop
deriving DecidableEq

/-- One step of the scheduler.  `start` is a no-op when already running,
otherwise it performs an immediate (non-gated) check and arms the
interval; a tick of the armed interval checks only during market hours
and publishes the non-trading status otherwise; fetch completions resolve
the oldest outstanding `check`; `stop` clears the interval. -/
def step (p : Poller) : Ev → Poller
  | .start =>
    if p.isRunning then p
    else beginCheck { p with isRunning := true, intervalArmed := true }
  | .tick mh =>
    if p.intervalArmed then
      if mh then beginCheck p else { p with status := some .nonTrading }
    else p
  | .fetchOk stocks =>
    if p.inFlight = 0 then p
    else
      { p with
        inFlight := p.inFlight - 1
        items := (applyStocks stocks p.items).1
        status := some .running }
  | .fetchErr =>
    if p.inFlight = 0 then p
    else { p with inFlight := p.inFlight - 1, status := some .checkFailed }
  | .stop => { p with isRunning := false, intervalArmed := false, status := some .stopped }

/-- Run a trace of events. -/
def run (p : Poller) (evs : List Ev) : Poller :=
  evs.foldl step p

/-! ### The UI entry point that guards `add` — `addWatchlistItem`

The empty-rule-set rejection lives here, not in `WatchlistManager.add`:
the form handler collects the checked alert rows and refuses
(`alert('請至少設定一個警示條件')`) before calling the manager when none
were collected.  In edit mode it calls `update` instead. -/
def addWatchlistItem (selected : Option StockRef) (collected : List Alert)
    (editingItemId : Option String) (newId createdAt : String)
    (wl : List WatchItem) : List WatchItem :=
  match selected with
  | none => wl
  | some stock =>
    if collected.length = 0 then wl
    else
      match editingItemId with
      | some eid => WatchlistManager.update eid collected wl
      | none => (WatchlistManager.add newId createdAt stock (some collected) wl).1

/-! ### Store-level operation sequences (for the reachability invariant) -/

/-- The mutating operations that touch the trigger ledger. -/
inductive Op where
  | add (newId createdAt : String) (stock : StockRef) (alerts : Option (List Alert))
  | update (id : String) (alerts : List Alert)
  | remove (id : String)
  | reset
  | poll (fetch : Except Unit (List Stock))

/-- Apply one operation to the store. -/
def applyOp (wl : List WatchItem) : Op → List WatchItem
  | .add newId createdAt stock alerts => (WatchlistManager.add newId createdAt stock alerts wl).1
  | .update id alerts => WatchlistManager.update id alerts wl
  | .remove id => WatchlistManager.remove id wl
  | .reset => WatchlistManager.resetTriggered wl
  | .poll fetch => (check wl fetch).items

/-- Run a sequence of operations from the initial (empty) store. -/
def runOps (ops : List Op) : List WatchItem :=
  ops.foldl applyOp []

/-! ### Item-level corollaries of the loop characterization -/

/-! ### Preservation of the duplicate-free ledger invariant -/

/-- Every item of the store has a duplicate-free trigger ledger. -/
def LedgerNodup (wl : List WatchItem) : Prop :=
  ∀ it ∈ wl, it.triggered.Nodup

/-! ### Iterated polls of a fixed item (specification device for the
no-double-fire property) -/

/-- The item after `k` consecutive `checkAlerts` passes against the same
quote. -/
def pollIter (item : WatchItem) (s : Stock) : Nat → WatchItem
  | 0 => item
  | k + 1 => (checkAlerts (pollIter item s k) s).1

/-! ### Claim-side transcriptions and concrete scenario data -/

/-- Claim-side: the spec's market-hours predicate over a full wall-clock
instant — weekday and time within 09:00:00–13:30:00 *inclusive of
seconds* (so 13:30:01 is outside). -/
def marketHoursClaim (day hour minute second : Nat) : Bool :=
  decide ((1 ≤ day ∧ day ≤ 5) ∧
    (9 < hour ∨ (hour = 9 ∧ (0 < minute ∨ (minute = 0 ∧ 0 ≤ second)))) ∧
    (hour < 13 ∨ (hour = 13 ∧ (minute < 30 ∨ (minute = 30 ∧ second = 0)))))

/-- Claim-side (amended): weekday and time within 09:00:00–13:30:59 —
the code reads only hours and minutes, so the whole 13:30 minute is
inside the window. -/
def marketHoursAmended (day hour minute second : Nat) : Bool :=
  decide ((1 ≤ day ∧ day ≤ 5) ∧
    (9 < hour ∨ (hour = 9 ∧ (0 < minute ∨ (minute = 0 ∧ 0 ≤ second)))) ∧
    (hour < 13 ∨ (hour = 13 ∧ (minute < 30 ∨ (minute = 30 ∧ second ≤ 59)))))

/-- An enabled `price_above 100` rule. -/
def alertPA100 : Alert := ⟨AlertType.price_above, 100, true⟩

/-- A watch item with the single rule `price_above 100` and empty ledger. -/
def itemPA100 : WatchItem := ⟨"w1", "2330", "X", [alertPA100], [], "t0"⟩

/-- A second item watching the same instrument code `2330`. -/
def itemPB50 : WatchItem := ⟨"wb", "2330", "Y", [⟨AlertType.price_below, 50, true⟩], [], "t0"⟩

/-- A quote row for `2330` at the given price (flat otherwise). -/
def quote2330 (p : ℚ) : Stock := ⟨"2330", p, 0, 0⟩

/-- A freshly constructed scheduler with one watched item. -/
def poller0 : Poller := ⟨[itemPA100], false, false, 0, none⟩

/-- A disabled placeholder rule (keeps index 0 inert in the demo). -/
def alertOff : Alert := ⟨AlertType.price_above, 10, false⟩

/-- An enabled `price_above 10` rule. -/
def alertOn10 : Alert := ⟨AlertType.price_above, 10, true⟩

/-- An enabled `price_above 999` rule. -/
def alertOn999 : Alert := ⟨AlertType.price_above, 999, true⟩

/-- Demo store: one item with rules `[alertOff, alertOn10]`. -/
def demoStore0 : List WatchItem :=
  (WatchlistManager.add "w1" "t0" ⟨"2330", "X"⟩ (some [alertOff, alertOn10]) []).1

/-- After one poll at price 100: rule index 1 fires and is recorded. -/
def demoStore1 : List WatchItem :=
  (check demoStore0 (Except.ok [quote2330 100])).items

/-- After shrinking the rule set to `[alertOff]`: the key of the removed
index-1 rule stays in the ledger. -/
def demoStore2 : List WatchItem :=
  WatchlistManager.update "w1" [alertOff] demoStore1

/-- After growing the rule set again: index 1 is a brand-new rule, but
the stale key makes it start in the fired state. -/
def demoStore3 : List WatchItem :=
  WatchlistManager.update "w1" [alertOff, alertOn999] demoStore2

/-- The quote price 99.99 as an exact rational (9999/100). -/
def price9999 : ℚ := ⟨9999, 100, by decide, by decide⟩

/-! ## Theorems -/

theorem toDigitsCore_eq_repDigits :
    ∀ (f n : Nat) (acc : List Char), n < f →
      Nat.toDigitsCore 10 f n acc = repDigits n ++ acc := by
  intro f
  induction f with
  | zero => intro n acc h; omega
  | succ f ih =>
    intro n acc h
    rw [Nat.toDigitsCore]
    by_cases h10 : n / 10 = 0
    · have hn10 : n < 10 := by omega
      simp only [h10, if_pos rfl]
      rw [repDigits]
      simp [hn10, Nat.mod_eq_of_lt hn10]
    · have hge : ¬ n < 10 := by omega
      simp only [if_neg h10]
      have hdiv : n / 10 < f := by
        have h1 : n / 10 < n := Nat.div_lt_self (by omega) (by omega)
        omega
      rw [ih (n / 10) _ hdiv]
      conv_rhs => rw [repDigits]
      simp [hge, List.append_assoc]

theorem repr_eq_repDigits (n : Nat) : Nat.repr n = (repDigits n).asString := by
  show (Nat.toDigits 10 n).asString = _
  rw [Nat.toDigits, toDigitsCore_eq_repDigits (n + 1) n [] (by omega)]
  simp

theorem digitChar_val {k : Nat} (hk : k < 10) : (Nat.digitChar k).toNat - 48 = k := by
  interval_cases k <;> rfl

theorem digitChar_ne_underscore {k : Nat} (hk : k < 10) : Nat.digitChar k ≠ '_' := by
  interval_cases k <;> decide

theorem digitsVal_repDigits (n : Nat) : digitsVal (repDigits n) = n := by
  induction n using Nat.strong_induction_on with
  | _ n ih =>
    by_cases h : n < 10
    · rw [repDigits]
      simp only [if_pos h, digitsVal, List.foldl_cons, List.foldl_nil]
      rw [digitChar_val h]
      omega
    · rw [repDigits]
      simp only [if_neg h, digitsVal, List.foldl_append, List.foldl_cons, List.foldl_nil]
      have hv : digitsVal (repDigits (n / 10)) = n / 10 :=
        ih (n / 10) (Nat.div_lt_self (by omega) (by omega))
      rw [digitsVal] at hv
      rw [hv, digitChar_val (Nat.mod_lt n (by omega))]
      omega

theorem repDigits_injective {m n : Nat} (h : repDigits m = repDigits n) : m = n := by
  have := digitsVal_repDigits m
  rw [h, digitsVal_repDigits] at this
  omega

theorem repr_injective {m n : Nat} (h : Nat.repr m = Nat.repr n) : m = n := by
  rw [repr_eq_repDigits, repr_eq_repDigits] at h
  apply repDigits_injective
  have : ((repDigits m).asString).data = ((repDigits n).asString).data := by rw [h]
  simpa [List.asString] using this

theorem underscore_not_mem_repDigits (n : Nat) : '_' ∉ repDigits n := by
  induction n using Nat.strong_induction_on with
  | _ n ih =>
    by_cases h : n < 10
    · rw [repDigits]
      simp only [if_pos h, List.mem_singleton]
      exact fun hc => digitChar_ne_underscore h hc.symm
    · rw [repDigits]
      simp only [if_neg h, List.mem_append, List.mem_singleton]
      rintro (hm | hm)
      · exact ih (n / 10) (Nat.div_lt_self (by omega) (by omega)) hm
      · exact digitChar_ne_underscore (Nat.mod_lt n (by omega)) hm.symm

/-- Splitting a char list at a separator that occurs in neither prefix. -/
theorem append_sep_inj :
    ∀ (l₁ : List Char) (r₁ : List Char) (l₂ : List Char) (r₂ : List Char),
      '_' ∉ l₁ → '_' ∉ l₂ →
      l₁ ++ '_' :: r₁ = l₂ ++ '_' :: r₂ → l₁ = l₂ ∧ r₁ = r₂ := by
  intro l₁
  induction l₁ with
  | nil =>
    intro r₁ l₂ r₂ _ h₂ heq
    cases l₂ with
    | nil => simpa using heq
    | cons c t =>
      exfalso
      simp only [List.nil_append, List.cons_append, List.cons.injEq] at heq
      exact h₂ (by simp [heq.1.symm])
  | cons c t ih =>
    intro r₁ l₂ r₂ h₁ h₂ heq
    cases l₂ with
    | nil =>
      exfalso
      simp only [List.cons_append, List.nil_append, List.cons.injEq] at heq
      exact h₁ (by simp [heq.1])
    | cons c' t' =>
      simp only [List.cons_append, List.cons.injEq] at heq
      have ht : t = t' ∧ r₁ = r₂ :=
        ih r₁ t' r₂ (fun hm => h₁ (List.mem_cons_of_mem _ hm))
          (fun hm => h₂ (List.mem_cons_of_mem _ hm)) heq.2
      exact ⟨by rw [heq.1, ht.1], ht.2⟩

/-- Two ledger keys with different rule indices are different strings. -/
theorem alertKey_inj_index {t t' : AlertType} {i j : Nat}
    (h : alertKey t i = alertKey t' j) : i = j := by
  have hdata : (alertKey t i).data = (alertKey t' j).data := by rw [h]
  rw [alertKey, alertKey, repr_eq_repDigits, repr_eq_repDigits] at hdata
  simp only [String.data_append] at hdata
  have hrev : (repDigits i).reverse ++ '_' :: (t.str.data).reverse
      = (repDigits j).reverse ++ '_' :: (t'.str.data).reverse := by
    have := congrArg List.reverse hdata
    simpa [List.reverse_append] using this
  have hsplit := append_sep_inj _ _ _ _
    (fun hm => underscore_not_mem_repDigits i (List.mem_reverse.mp hm))
    (fun hm => underscore_not_mem_repDigits j (List.mem_reverse.mp hm)) hrev
  apply repDigits_injective
  have := congrArg List.reverse hsplit.1
  simpa using this

theorem firedPairs_mem_ge {s : Stock} :
    ∀ (alerts : List Alert) (i : Nat) (trig : List String) (j : Nat) (a : Alert),
      (j, a) ∈ firedPairs s alerts i trig → i ≤ j := by
  intro alerts
  induction alerts with
  | nil => intro i trig j a h; simp [firedPairs] at h
  | cons a0 rest ih =>
    intro i trig j a h
    rw [firedPairs] at h
    split at h
    · rcases List.mem_cons.mp h with h | h
      · simp only [Prod.mk.injEq] at h; omega
      · have := ih (i + 1) trig j a h; omega
    · have := ih (i + 1) trig j a h; omega

/-- Keys of rules at indices ≥ `i` never collide with appended keys of
rules at indices < `i`, so appending those keys to the ledger does not
change which later rules fire. -/
theorem firedPairs_append_irrel {s : Stock} :
    ∀ (alerts : List Alert) (i : Nat) (trig extra : List String),
      (∀ (j : Nat) (t : AlertType), i ≤ j → alertKey t j ∉ extra) →
      firedPairs s alerts i (trig ++ extra) = firedPairs s alerts i trig := by
  intro alerts
  induction alerts with
  | nil => intro i trig extra _; rfl
  | cons a0 rest ih =>
    intro i trig extra hext
    rw [firedPairs, firedPairs]
    have hmem : (alertKey a0.type i ∈ trig ++ extra) ↔ (alertKey a0.type i ∈ trig) := by
      simp only [List.mem_append]
      constructor
      · rintro (h | h)
        · exact h
        · exact absurd h (hext i a0.type (le_refl i))
      · exact Or.inl
    have hrec := ih (i + 1) trig extra (fun j t hj => hext j t (by omega))
    by_cases hcond : a0.enabled = true ∧ alertKey a0.type i ∉ trig ++ extra ∧ condHolds a0 s = true
    · rw [if_pos hcond, if_pos ⟨hcond.1, fun hm => hcond.2.1 (List.mem_append_left _ hm), hcond.2.2⟩, hrec]
    · have hcond' : ¬ (a0.enabled = true ∧ alertKey a0.type i ∉ trig ∧ condHolds a0 s = true) := by
        intro hc
        exact hcond ⟨hc.1, fun hm => hc.2.1 (hmem.mp hm), hc.2.2⟩
      rw [if_neg hcond, if_neg hcond', hrec]

/-- The loop is equivalent to the claim-side contract: the final ledger is
the initial one plus the keys of the fired rules, and the `notify` calls
are exactly the fired rules with their actual values. -/
theorem checkAlertsAux_eq {s : Stock} :
    ∀ (alerts : List Alert) (i : Nat) (trig : List String),
      checkAlertsAux s alerts i trig =
        (trig ++ (firedPairs s alerts i trig).map (fun p => alertKey p.2.type p.1),
         (firedPairs s alerts i trig).map (fun p => (p.1, p.2, actualValue p.2 s))) := by
  intro alerts
  induction alerts with
  | nil => intro i trig; simp [checkAlertsAux, firedPairs]
  | cons a0 rest ih =>
    intro i trig
    rw [checkAlertsAux, firedPairs]
    by_cases hen : a0.enabled = false
    · rw [if_pos hen, if_neg (by simp [hen]), ih]
    · rw [if_neg hen]
      by_cases hin : alertKey a0.type i ∈ trig
      · rw [if_pos hin, if_neg (by simp [hin]), ih]
      · rw [if_neg hin]
        by_cases hc : condHolds a0 s
        · rw [if_pos hc, if_pos ⟨by simpa using hen, hin, hc⟩]
          have hirr : firedPairs s rest (i + 1) (trig ++ [alertKey a0.type i])
              = firedPairs s rest (i + 1) trig := by
            apply firedPairs_append_irrel
            intro j t hj hm
            rcases List.mem_singleton.mp hm with hm
            have := alertKey_inj_index hm
            omega
          rw [ih, hirr]
          simp [List.append_assoc]
        · rw [if_neg (by simpa using hc), if_neg (by simp [hc]), ih]

/-- Membership characterization of the claim-side fired list. -/
theorem firedPairs_mem {s : Stock} :
    ∀ (alerts : List Alert) (i : Nat) (trig : List String) (j : Nat) (a : Alert),
      (j, a) ∈ firedPairs s alerts i trig ↔
        (i ≤ j ∧ alerts[j - i]? = some a ∧ a.enabled = true ∧
          alertKey a.type j ∉ trig ∧ condHolds a s = true) := by
  intro alerts
  induction alerts with
  | nil =>
    intro i trig j a
    simp [firedPairs]
  | cons a0 rest ih =>
    intro i trig j a
    rw [firedPairs]
    by_cases hcond : a0.enabled = true ∧ alertKey a0.type i ∉ trig ∧ condHolds a0 s = true
    · rw [if_pos hcond]
      constructor
      · intro h
        rcases List.mem_cons.mp h with h | h
        · simp only [Prod.mk.injEq] at h
          obtain ⟨h1, h2⟩ := h
          subst h1
          subst h2
          exact ⟨le_refl _, by simp, hcond.1, hcond.2.1, hcond.2.2⟩
        · have hr := (ih (i + 1) trig j a).mp h
          have hge : i + 1 ≤ j := hr.1
          refine ⟨by omega, ?_, hr.2.2⟩
          have hji : j - i = (j - (i + 1)) + 1 := by omega
          rw [hji]
          simpa using hr.2.1
      · rintro ⟨hij, hget, hen, hnin, hc⟩
        by_cases hji : j = i
        · subst hji
          simp only [Nat.sub_self, List.getElem?_cons_zero, Option.some.injEq] at hget
          subst hget
          exact List.mem_cons_self _ _
        · have hgt : i + 1 ≤ j := by omega
          have hd : j - i = (j - (i + 1)) + 1 := by omega
          rw [hd] at hget
          simp only [List.getElem?_cons_succ] at hget
          exact List.mem_cons_of_mem _ ((ih (i + 1) trig j a).mpr ⟨hgt, hget, hen, hnin, hc⟩)
    · rw [if_neg hcond]
      constructor
      · intro h
        have hr := (ih (i + 1) trig j a).mp h
        have hge : i + 1 ≤ j := hr.1
        refine ⟨by omega, ?_, hr.2.2⟩
        have hji : j - i = (j - (i + 1)) + 1 := by omega
        rw [hji]
        simpa using hr.2.1
      · rintro ⟨hij, hget, hen, hnin, hc⟩
        by_cases hji : j = i
        · subst hji
          simp only [Nat.sub_self, List.getElem?_cons_zero, Option.some.injEq] at hget
          subst hget
          exact absurd ⟨hen, hnin, hc⟩ hcond
        · have hgt : i + 1 ≤ j := by omega
          have hd : j - i = (j - (i + 1)) + 1 := by omega
          rw [hd] at hget
          simp only [List.getElem?_cons_succ] at hget
          exact (ih (i + 1) trig j a).mpr ⟨hgt, hget, hen, hnin, hc⟩

/-- Every key appended by one `checkAlerts` pass is absent from the
initial ledger. -/
theorem firedPairs_keys_fresh {s : Stock} :
    ∀ (alerts : List Alert) (i : Nat) (trig : List String) (k : String),
      k ∈ (firedPairs s alerts i trig).map (fun p => alertKey p.2.type p.1) →
      k ∉ trig := by
  intro alerts i trig k hk
  rcases List.mem_map.mp hk with ⟨⟨j, a⟩, hmem, rfl⟩
  exact ((firedPairs_mem alerts i trig j a).mp hmem).2.2.2.1

/-- The keys appended by one `checkAlerts` pass are pairwise distinct
(their indices strictly increase along the list). -/
theorem firedPairs_keys_nodup {s : Stock} :
    ∀ (alerts : List Alert) (i : Nat) (trig : List String),
      ((firedPairs s alerts i trig).map (fun p => alertKey p.2.type p.1)).Nodup := by
  intro alerts
  induction alerts with
  | nil => intro i trig; simp [firedPairs]
  | cons a0 rest ih =>
    intro i trig
    rw [firedPairs]
    split
    · simp only [List.map_cons, List.nodup_cons]
      refine ⟨?_, ih (i + 1) trig⟩
      intro hmem
      rcases List.mem_map.mp hmem with ⟨⟨j, a⟩, hmem', hkey⟩
      have hge : i + 1 ≤ j := firedPairs_mem_ge rest (i + 1) trig j a hmem'
      have := alertKey_inj_index hkey
      omega
    · exact ih (i + 1) trig

/-- A `checkAlerts` pass preserves a duplicate-free ledger. -/
theorem checkAlerts_triggered_nodup (item : WatchItem) (s : Stock)
    (h : item.triggered.Nodup) : (checkAlerts item s).1.triggered.Nodup := by
  show (checkAlertsAux s item.alerts 0 item.triggered).1.Nodup
  rw [checkAlertsAux_eq]
  refine List.Nodup.append h (firedPairs_keys_nodup _ _ _) ?_
  intro k hk hk'
  exact firedPairs_keys_fresh item.alerts 0 item.triggered k hk' hk

theorem condHolds_iff (a : Alert) (s : Stock) :
    condHolds a s = true ↔
      (match a.type with
       | .price_above => a.value ≤ s.price
       | .price_below => s.price ≤ a.value
       | .change_percent_above => a.value ≤ s.change_percent
       | .change_percent_below => s.change_percent ≤ a.value
       | .bid_ask_ratio_above => a.value ≤ s.bid_ask_ratio) := by
  cases h : a.type <;> simp [condHolds, h]

theorem checkAlerts_triggered_eq (item : WatchItem) (s : Stock) :
    (checkAlerts item s).1.triggered =
      item.triggered ++
        (firedPairs s item.alerts 0 item.triggered).map (fun p => alertKey p.2.type p.1) := by
  show (checkAlertsAux s item.alerts 0 item.triggered).1 = _
  rw [checkAlertsAux_eq]

theorem checkAlerts_notifs_eq (item : WatchItem) (s : Stock) :
    (checkAlerts item s).2 =
      (firedPairs s item.alerts 0 item.triggered).map
        (fun p => (p.1, p.2, actualValue p.2 s)) := by
  show (checkAlertsAux s item.alerts 0 item.triggered).2 = _
  rw [checkAlertsAux_eq]

theorem checkAlerts_frame (item : WatchItem) (s : Stock) :
    (checkAlerts item s).1.id = item.id ∧
    (checkAlerts item s).1.stock_code = item.stock_code ∧
    (checkAlerts item s).1.stock_name = item.stock_name ∧
    (checkAlerts item s).1.alerts = item.alerts ∧
    (checkAlerts item s).1.created_at = item.created_at :=
  ⟨rfl, rfl, rfl, rfl, rfl⟩

theorem firedIdx_iff (item : WatchItem) (s : Stock) (i : Nat) :
    i ∈ firedIdx item s ↔
      ∃ a, item.alerts[i]? = some a ∧ a.enabled = true ∧
        alertKey a.type i ∉ item.triggered ∧ condHolds a s = true := by
  rw [firedIdx, checkAlerts_notifs_eq, List.map_map]
  constructor
  · intro h
    rcases List.mem_map.mp h with ⟨⟨j, a⟩, hmem, hj⟩
    simp only [Function.comp] at hj
    subst hj
    have hr := (firedPairs_mem item.alerts 0 item.triggered j a).mp hmem
    exact ⟨a, by simpa using hr.2.1, hr.2.2⟩
  · rintro ⟨a, hget, hen, hnin, hc⟩
    apply List.mem_map.mpr
    refine ⟨(i, a), ?_, rfl⟩
    exact (firedPairs_mem item.alerts 0 item.triggered i a).mpr
      ⟨Nat.zero_le i, by simpa using hget, hen, hnin, hc⟩

theorem checkAlerts_triggered_mono (item : WatchItem) (s : Stock) :
    ∀ k ∈ item.triggered, k ∈ (checkAlerts item s).1.triggered := by
  intro k hk
  rw [checkAlerts_triggered_eq]
  exact List.mem_append_left _ hk

/-- The key of a rule that fired is in the ledger afterwards. -/
theorem checkAlerts_key_added (item : WatchItem) (s : Stock) (i : Nat) (a : Alert)
    (hget : item.alerts[i]? = some a) (hfired : i ∈ firedIdx item s) :
    alertKey a.type i ∈ (checkAlerts item s).1.triggered := by
  rcases (firedIdx_iff item s i).mp hfired with ⟨a', hget', hen', hnin', hc'⟩
  have haa : a' = a := by rw [hget] at hget'; exact (Option.some.injEq _ _).mp hget'.symm
  subst haa
  rw [checkAlerts_triggered_eq]
  apply List.mem_append_right
  apply List.mem_map.mpr
  refine ⟨(i, a'), ?_, rfl⟩
  exact (firedPairs_mem item.alerts 0 item.triggered i a').mpr
    ⟨Nat.zero_le i, by simpa using hget', hen', hnin', hc'⟩

/-- Fan-out of one quote row over the item array. -/
theorem applyStock_items (s : Stock) :
    ∀ wl : List WatchItem,
      (applyStock s wl).1 =
        wl.map (fun it => if it.stock_code = s.code then (checkAlerts it s).1 else it) := by
  intro wl
  induction wl with
  | nil => rfl
  | cons it rest ih =>
    rw [applyStock, List.map_cons, ← ih]
    by_cases h : it.stock_code = s.code <;> simp [h]

theorem applyStock_nodup (s : Stock) (wl : List WatchItem)
    (h : LedgerNodup wl) : LedgerNodup (applyStock s wl).1 := by
  rw [applyStock_items]
  intro it hit
  rcases List.mem_map.mp hit with ⟨it0, hit0, rfl⟩
  by_cases hc : it0.stock_code = s.code
  · simpa [hc] using checkAlerts_triggered_nodup it0 s (h it0 hit0)
  · simpa [hc] using h it0 hit0

theorem applyStocks_nodup :
    ∀ (stocks : List Stock) (wl : List WatchItem),
      LedgerNodup wl → LedgerNodup (applyStocks stocks wl).1 := by
  intro stocks
  induction stocks with
  | nil => intro wl h; exact h
  | cons s rest ih =>
    intro wl h
    rw [applyStocks]
    exact ih _ (applyStock_nodup s wl h)

theorem update_ledger_sub (id : String) (alerts : List Alert) :
    ∀ (wl : List WatchItem), ∀ it ∈ WatchlistManager.update id alerts wl,
      ∃ it0 ∈ wl, it.triggered = it0.triggered := by
  intro wl
  induction wl with
  | nil => intro it hit; simp [WatchlistManager.update] at hit
  | cons it0 rest ih =>
    intro it hit
    rw [WatchlistManager.update] at hit
    split at hit
    · rcases List.mem_cons.mp hit with rfl | hit
      · exact ⟨it0, List.mem_cons_self _ _, rfl⟩
      · exact ⟨it, List.mem_cons_of_mem _ hit, rfl⟩
    · rcases List.mem_cons.mp hit with rfl | hit
      · exact ⟨it, List.mem_cons_self _ _, rfl⟩
      · rcases ih it hit with ⟨it1, hit1, he⟩
        exact ⟨it1, List.mem_cons_of_mem _ hit1, he⟩

theorem applyOp_nodup (wl : List WatchItem) (op : Op)
    (h : LedgerNodup wl) : LedgerNodup (applyOp wl op) := by
  cases op with
  | add newId createdAt stock alerts =>
    intro it hit
    rcases List.mem_append.mp hit with hit | hit
    · exact h it hit
    · rcases List.mem_singleton.mp hit with rfl
      exact List.nodup_nil
  | update id alerts =>
    intro it hit
    rcases update_ledger_sub id alerts wl it hit with ⟨it0, hit0, he⟩
    rw [he]
    exact h it0 hit0
  | remove id =>
    intro it hit
    exact h it (List.mem_of_mem_filter hit)
  | reset =>
    intro it hit
    rcases List.mem_map.mp hit with ⟨it0, _, rfl⟩
    exact List.nodup_nil
  | poll fetch =>
    show LedgerNodup (check wl fetch).items
    rw [check]
    by_cases hlen : wl.length = 0
    · simpa [hlen] using h
    · cases fetch with
      | error e => simpa [hlen] using h
      | ok stocks =>
        simp only [if_neg hlen]
        exact applyStocks_nodup stocks wl h

theorem runOps_nodup_aux :
    ∀ (ops : List Op) (wl : List WatchItem),
      LedgerNodup wl → LedgerNodup (ops.foldl applyOp wl) := by
  intro ops
  induction ops with
  | nil => intro wl h; exact h
  | cons op rest ih =>
    intro wl h
    exact ih _ (applyOp_nodup wl op h)

theorem pollIter_alerts (item : WatchItem) (s : Stock) :
    ∀ k, (pollIter item s k).alerts = item.alerts := by
  intro k
  induction k with
  | zero => rfl
  | succ k ih => rw [pollIter]; exact ih

theorem pollIter_triggered_mono (item : WatchItem) (s : Stock) :
    ∀ k, ∀ x ∈ (pollIter item s k).triggered, x ∈ (pollIter item s (k + 1)).triggered := by
  intro k x hx
  exact checkAlerts_triggered_mono _ s x hx

theorem isMarketHours_eq_decide (day hour minute : Nat) :
    isMarketHours day hour minute =
      decide ((1 ≤ day ∧ day ≤ 5) ∧
        ((hour = 9 ∧ 0 ≤ minute) ∨ (10 ≤ hour ∧ hour < 13) ∨ (hour = 13 ∧ minute ≤ 30))) := by
  rw [isMarketHours]
  by_cases hd : 1 ≤ day ∧ day ≤ 5
  · rw [if_pos hd]
    by_cases hb : (hour = 9 ∧ 0 ≤ minute) ∨ (10 ≤ hour ∧ hour < 13) ∨ (hour = 13 ∧ minute ≤ 30)
    · rw [if_pos hb]
      exact (decide_eq_true ⟨hd, hb⟩).symm
    · rw [if_neg hb]
      exact (decide_eq_false fun hc => hb hc.2).symm
  · rw [if_neg hd]
    exact (decide_eq_false fun hc => hd hc.1).symm

/-- C3 counterexample: on a Wednesday at 13:30:01 the claim demands
`false` (the window closes at 13:30:00), but `isMarketHours` never reads
the seconds and returns `true` for the entire 13:30 minute. -/
theorem C3_market_hours_counterexample :
    isMarketHours 3 13 30 = true ∧ marketHoursClaim 3 13 30 1 = false := by
  constructor <;> decide

/-- C3 (amended): for every wall-clock instant (with a real seconds
value), `isMarketHours` is true exactly when the local day is Monday
through Friday and the local time lies in 09:00:00–13:30:59 inclusive —
the predicate has minute granularity, so the whole 13:30 minute is
inside the window. -/
theorem C3_market_hours_amended (day hour minute second : Nat)
    (hs : second ≤ 59) :
    isMarketHours day hour minute = marketHoursAmended day hour minute second := by
  rw [isMarketHours_eq_decide, marketHoursAmended]
  rw [decide_eq_decide]
  constructor
  · rintro ⟨hd, hb⟩
    exact ⟨hd, by omega, by omega⟩
  · rintro ⟨hd, h1, h2⟩
    exact ⟨hd, by omega⟩

/-- C3 witness: Wednesday 09:00:00 is inside the window for both sides. -/
theorem C3_market_hours_amended_witness :
    (1 : Nat) ≤ 59 ∧ isMarketHours 3 13 30 = marketHoursAmended 3 13 30 1 :=
  ⟨by decide, C3_market_hours_amended 3 13 30 1 (by decide)⟩

/-- C9: `resetTriggered` empties every item's ledger, preserves every
other field, the item count and the item order, and is idempotent. -/
theorem C9_reset_semantics (wl : List WatchItem) :
    (WatchlistManager.resetTriggered wl).length = wl.length
    ∧ (∀ i : Nat, (WatchlistManager.resetTriggered wl)[i]? =
        (wl[i]?).map (fun it => { it with triggered := [] }))
    ∧ WatchlistManager.resetTriggered (WatchlistManager.resetTriggered wl) =
        WatchlistManager.resetTriggered wl := by
  refine ⟨by simp [WatchlistManager.resetTriggered], ?_, ?_⟩
  · intro i
    simp [WatchlistManager.resetTriggered]
  · simp only [WatchlistManager.resetTriggered, List.map_map]
    rfl

/-- C2: a rule at index `i` fires (is notified) in a `checkAlerts` pass
iff it is enabled, its ledger key is not already in `triggeredKeys`, and
its condition holds per the table, with all comparisons inclusive; in
particular `priceAbove 100` fires on a quote at exactly 100 and does not
fire at 99.99. -/
theorem C2_evaluator_correct :
    (∀ (item : WatchItem) (s : Stock) (i : Nat),
      i ∈ firedIdx item s ↔
        ∃ a, item.alerts[i]? = some a ∧ a.enabled = true ∧
          alertKey a.type i ∉ item.triggered ∧
          (match a.type with
           | .price_above => a.value ≤ s.price
           | .price_below => s.price ≤ a.value
           | .change_percent_above => a.value ≤ s.change_percent
           | .change_percent_below => s.change_percent ≤ a.value
           | .bid_ask_ratio_above => a.value ≤ s.bid_ask_ratio))
    ∧ firedIdx itemPA100 (quote2330 100) = [0]
    ∧ firedIdx itemPA100 (quote2330 price9999) = [] := by
  refine ⟨?_, by decide, by decide⟩
  intro item s i
  rw [firedIdx_iff]
  constructor
  · rintro ⟨a, hget, hen, hnin, hc⟩
    exact ⟨a, hget, hen, hnin, (condHolds_iff a s).mp hc⟩
  · rintro ⟨a, hget, hen, hnin, hc⟩
    exact ⟨a, hget, hen, hnin, (condHolds_iff a s).mpr hc⟩

/-- C1: (a) an enabled rule whose ledger key is already in
`triggeredKeys` is never notified by a `checkAlerts` pass and its key is
not appended again; (b) a rule whose condition holds and which is not yet
in the ledger is notified on exactly the first of N consecutive polls and
on none of the later ones; (c) after the ledger is cleared by
`resetTriggered`, the rule fires again. -/
theorem C1_no_double_fire :
    (∀ (item : WatchItem) (s : Stock) (i : Nat) (a : Alert),
      item.alerts[i]? = some a → a.enabled = true →
      alertKey a.type i ∈ item.triggered →
      i ∉ firedIdx item s ∧
        (checkAlerts item s).1.triggered.count (alertKey a.type i) =
          item.triggered.count (alertKey a.type i))
    ∧ (∀ (item : WatchItem) (s : Stock) (i : Nat) (a : Alert),
      item.alerts[i]? = some a → a.enabled = true → condHolds a s = true →
      alertKey a.type i ∉ item.triggered →
      i ∈ firedIdx item s ∧ ∀ k : Nat, i ∉ firedIdx (pollIter item s (k + 1)) s)
    ∧ (∀ (item : WatchItem) (s : Stock) (i : Nat) (a : Alert) (k : Nat),
      item.alerts[i]? = some a → a.enabled = true → condHolds a s = true →
      ∀ it' ∈ WatchlistManager.resetTriggered [pollIter item s k],
        i ∈ firedIdx it' s) := by
  refine ⟨?_, ?_, ?_⟩
  · intro item s i a hget hen hin
    constructor
    · intro hfired
      rcases (firedIdx_iff item s i).mp hfired with ⟨a', hget', _, hnin', _⟩
      rw [hget] at hget'
      cases hget'
      exact hnin' hin
    · rw [checkAlerts_triggered_eq, List.count_append]
      have hz : ((firedPairs s item.alerts 0 item.triggered).map
          (fun p => alertKey p.2.type p.1)).count (alertKey a.type i) = 0 := by
        apply List.count_eq_zero.mpr
        intro hmem
        exact firedPairs_keys_fresh item.alerts 0 item.triggered _ hmem hin
      omega
  · intro item s i a hget hen hc hnin
    have hfired0 : i ∈ firedIdx item s :=
      (firedIdx_iff item s i).mpr ⟨a, hget, hen, hnin, hc⟩
    refine ⟨hfired0, ?_⟩
    have hkmem : ∀ k : Nat, alertKey a.type i ∈ (pollIter item s (k + 1)).triggered := by
      intro k
      induction k with
      | zero => exact checkAlerts_key_added item s i a hget hfired0
      | succ k ih => exact pollIter_triggered_mono item s (k + 1) _ ih
    intro k hfk
    rcases (firedIdx_iff _ s i).mp hfk with ⟨a', hget', _, hnin', _⟩
    rw [pollIter_alerts, hget] at hget'
    cases hget'
    exact hnin' (hkmem k)
  · intro item s i a k hget hen hc it' hit'
    simp only [WatchlistManager.resetTriggered, List.map_cons, List.map_nil,
      List.mem_singleton] at hit'
    subst hit'
    apply (firedIdx_iff _ s i).mpr
    refine ⟨a, ?_, hen, by simp, hc⟩
    show (pollIter item s k).alerts[i]? = some a
    rw [pollIter_alerts]
    exact hget

/-- C1 witness: with a single enabled `priceAbove 100` rule and a quote
at 100 — already-fired blocks re-notification, a fresh item is notified
on the first poll but not the second, and a cleared ledger re-arms. -/
theorem C1_no_double_fire_witness :
    (0 ∉ firedIdx ⟨"w1", "2330", "X", [alertPA100], ["price_above_0"], "t0"⟩ (quote2330 100))
    ∧ (0 ∈ firedIdx itemPA100 (quote2330 100))
    ∧ (0 ∉ firedIdx (pollIter itemPA100 (quote2330 100) 1) (quote2330 100))
    ∧ (0 ∈ firedIdx (⟨"w1", "2330", "X", [alertPA100], [], "t0"⟩ : WatchItem) (quote2330 100)) :=
  ⟨(C1_no_double_fire.1 ⟨"w1", "2330", "X", [alertPA100], ["price_above_0"], "t0"⟩
      (quote2330 100) 0 alertPA100 (by decide) (by decide) (by decide)).1,
   (C1_no_double_fire.2.1 itemPA100 (quote2330 100) 0 alertPA100
      (by decide) (by decide) (by decide) (by decide)).1,
   (C1_no_double_fire.2.1 itemPA100 (quote2330 100) 0 alertPA100
      (by decide) (by decide) (by decide) (by decide)).2 0,
   C1_no_double_fire.2.2 itemPA100 (quote2330 100) 0 alertPA100 1
      (by decide) (by decide) (by decide)
      ⟨"w1", "2330", "X", [alertPA100], [], "t0"⟩ (by decide)⟩

/-- C4: when the batched quote fetch of a poll fails, `check` publishes
the check-failed status, leaves every item (hence every `triggeredKeys`)
exactly as it was, and emits nothing; at the scheduler level a failed
fetch completion only decrements the in-flight count and publishes the
status — it does not stop the interval or the running flag. -/
theorem C4_failed_fetch_atomic :
    (∀ (wl : List WatchItem) (e : Unit), wl.length ≠ 0 →
      check wl (Except.error e) =
        { items := wl
          status := Status.checkFailed
          request := some (wl.map (fun item => item.stock_code))
          notifs := [] })
    ∧ (∀ p : Poller, p.inFlight ≠ 0 →
      step p Ev.fetchErr =
        { p with inFlight := p.inFlight - 1, status := some Status.checkFailed }) := by
  constructor
  · intro wl e hlen
    rw [check, if_neg hlen]
  · intro p hp
    rw [step, if_neg hp]

/-- C4 witness: a one-item watchlist and a scheduler with one outstanding
fetch. -/
theorem C4_failed_fetch_atomic_witness :
    check [itemPA100] (Except.error ()) =
      { items := [itemPA100]
        status := Status.checkFailed
        request := some ["2330"]
        notifs := [] }
    ∧ step ⟨[itemPA100], true, true, 1, none⟩ Ev.fetchErr =
        ⟨[itemPA100], true, true, 0, some Status.checkFailed⟩ :=
  ⟨C4_failed_fetch_atomic.1 [itemPA100] () (by decide),
   C4_failed_fetch_atomic.2 ⟨[itemPA100], true, true, 1, none⟩ (by decide)⟩

/-- C7 counterexample: with two items both watching `2330`, the single
batched request's code list is `["2330", "2330"]` — one entry per item,
with the duplicate retained — not the distinct code set the claim
describes. -/
theorem C7_batch_counterexample :
    (check [itemPA100, itemPB50] (Except.ok [])).request = some ["2330", "2330"]
    ∧ ¬ (["2330", "2330"] : List String).Nodup := by
  constructor
  · rfl
  · decide

/-- C7 (amended): a poll over a non-empty watchlist issues exactly one
batched quote request whose code list has one entry per item in store
order (duplicates retained when items share an instrument; as a set it
still equals the set of watched codes), and each returned quote is
evaluated against every item whose `stock_code` matches it, the other
items being left untouched. -/
theorem C7_batch_fanout_amended :
    (∀ (wl : List WatchItem) (fetch : Except Unit (List Stock)), wl.length ≠ 0 →
      (check wl fetch).request = some (wl.map (fun item => item.stock_code)))
    ∧ (∀ (s : Stock) (wl : List WatchItem),
      (applyStock s wl).1 =
        wl.map (fun it => if it.stock_code = s.code then (checkAlerts it s).1 else it)) := by
  constructor
  · intro wl fetch hlen
    rw [check, if_neg hlen]
    cases fetch <;> rfl
  · intro s wl
    exact applyStock_items s wl

/-- C7 witness: both items watching `2330` are evaluated from the single
batch row. -/
theorem C7_batch_fanout_amended_witness :
    (check [itemPA100, itemPB50] (Except.ok [])).request = some ["2330", "2330"]
    ∧ (applyStock (quote2330 100) [itemPA100, itemPB50]).1 =
        [(checkAlerts itemPA100 (quote2330 100)).1,
         (checkAlerts itemPB50 (quote2330 100)).1] := by
  constructor
  · exact C7_batch_fanout_amended.1 [itemPA100, itemPB50] (Except.ok []) (by decide)
  · rw [C7_batch_fanout_amended.2 (quote2330 100) [itemPA100, itemPB50]]
    decide

/-- C8 counterexample: starting the scheduler begins an immediate,
non-gated check, and the very next market-hours tick begins another one
while the first fetch is still outstanding — two fetches are then in
flight, which the claim forbids. -/
theorem C8_overlap_counterexample :
    ¬ ((run poller0 [Ev.start, Ev.tick true]).inFlight ≤ 1) := by
  decide

/-- C8 (amended): the interval tick is gated only on market hours and on
watchlist emptiness; there is no in-flight guard, so a market-hours tick
over a non-empty watchlist always starts one more fetch, however many are
already outstanding. -/
theorem C8_tick_always_fetches (p : Poller)
    (harmed : p.intervalArmed = true) (hwl : p.items.length ≠ 0) :
    (step p (Ev.tick true)).inFlight = p.inFlight + 1 := by
  rw [step, if_pos harmed, if_pos rfl, beginCheck, if_neg hwl]

/-- C8 witness: a tick with one fetch already in flight makes two. -/
theorem C8_tick_always_fetches_witness :
    (step ⟨[itemPA100], true, true, 1, none⟩ (Ev.tick true)).inFlight = 1 + 1 :=
  C8_tick_always_fetches ⟨[itemPA100], true, true, 1, none⟩ (by decide) (by decide)

/-- C6 counterexample: `WatchlistManager.add` called with an empty rule
list does not fail — it appends a watch item with no alerts to the store
(the store is no longer empty), so there is no `EmptyRuleSetError` in the
manager. -/
theorem C6_add_empty_counterexample :
    (WatchlistManager.add "w1" "t1" ⟨"2330", "X"⟩ (some []) []).1 =
      [⟨"w1", "2330", "X", [], [], "t1"⟩]
    ∧ (WatchlistManager.add "w1" "t1" ⟨"2330", "X"⟩ (some []) []).1 ≠ [] := by
  constructor
  · rfl
  · decide

/-- C6 (amended): `WatchlistManager.add` never fails: for every rule list
(including the empty one) it returns a new item carrying the given rules,
the instrument's code and name, and an empty `triggeredKeys`, and appends
it to the store — in particular a second add for the same instrument also
just appends.  The empty-rule-set rejection is performed before `add` is
reached, by the UI form handler `addWatchlistItem`, which leaves the
store untouched when no alert conditions were collected. -/
theorem C6_add_total_amended :
    (∀ (newId createdAt : String) (stock : StockRef) (rules : List Alert)
        (wl : List WatchItem),
      WatchlistManager.add newId createdAt stock (some rules) wl =
        (wl ++ [⟨newId, stock.code, stock.name, rules, [], createdAt⟩],
         ⟨newId, stock.code, stock.name, rules, [], createdAt⟩))
    ∧ (∀ (stock : StockRef) (editingItemId : Option String)
        (newId createdAt : String) (wl : List WatchItem),
      addWatchlistItem (some stock) [] editingItemId newId createdAt wl = wl) := by
  constructor
  · intro newId createdAt stock rules wl
    rfl
  · intro stock editingItemId newId createdAt wl
    rfl

theorem update_get (id : String) (alerts : List Alert) :
    ∀ wl : List WatchItem,
      WatchlistManager.get id (WatchlistManager.update id alerts wl)
        = (WatchlistManager.get id wl).map (fun it => { it with alerts := alerts }) := by
  intro wl
  induction wl with
  | nil => rfl
  | cons it rest ih =>
    rw [WatchlistManager.update]
    by_cases h : it.id = id
    · rw [if_pos h]
      simp only [WatchlistManager.get]
      rw [List.find?_cons_of_pos _ (by simpa using h),
        List.find?_cons_of_pos _ (by simpa using h)]
      rfl
    · rw [if_neg h]
      simp only [WatchlistManager.get]
      rw [List.find?_cons_of_neg _ (by simpa using h),
        List.find?_cons_of_neg _ (by simpa using h)]
      exact ih

theorem update_length (id : String) (alerts : List Alert) :
    ∀ wl : List WatchItem,
      (WatchlistManager.update id alerts wl).length = wl.length := by
  intro wl
  induction wl with
  | nil => rfl
  | cons it rest ih =>
    rw [WatchlistManager.update]
    by_cases h : it.id = id
    · rw [if_pos h]
      simp
    · rw [if_neg h]
      simp [ih]

theorem update_getElem (id : String) (alerts : List Alert) :
    ∀ (wl : List WatchItem) (i : Nat),
      (WatchlistManager.update id alerts wl)[i]? =
        if i = wl.findIdx (fun it => it.id = id)
        then (wl[i]?).map (fun it => { it with alerts := alerts })
        else wl[i]? := by
  intro wl
  induction wl with
  | nil =>
    intro i
    simp [WatchlistManager.update]
  | cons it rest ih =>
    intro i
    rw [WatchlistManager.update]
    by_cases h : it.id = id
    · have hb : decide (it.id = id) = true := by simp [h]
      rw [if_pos h]
      simp only [List.findIdx_cons, hb, cond_true]
      cases i with
      | zero => simp
      | succ j => simp
    · have hb : decide (it.id = id) = false := by simp [h]
      rw [if_neg h]
      simp only [List.findIdx_cons, hb, cond_false]
      cases i with
      | zero =>
        rw [if_neg (by omega)]
        simp
      | succ j =>
        simp only [List.getElem?_cons_succ]
        rw [ih j]
        by_cases hj : j = rest.findIdx (fun it => it.id = id)
        · rw [if_pos hj, if_pos (by omega)]
        · rw [if_neg hj, if_neg (by omega)]

/-- C5 counterexample: the stale key `price_above_1` survives a rule-set
shrink, so after growing the rule set again the brand-new rule at
position 1 starts *fired* — it is never notified even at price 5000 —
contradicting "new positions start unfired". -/
theorem C5_update_counterexample :
    WatchlistManager.get "w1" demoStore2 =
      some ⟨"w1", "2330", "X", [alertOff], ["price_above_1"], "t0"⟩
    ∧ WatchlistManager.get "w1" demoStore3 =
      some ⟨"w1", "2330", "X", [alertOff, alertOn999], ["price_above_1"], "t0"⟩
    ∧ alertKey AlertType.price_above 1 ∈ (["price_above_1"] : List String)
    ∧ firedIdx ⟨"w1", "2330", "X", [alertOff, alertOn999], ["price_above_1"], "t0"⟩
        (quote2330 5000) = [] := by
  refine ⟨by decide, by decide, by decide, by decide⟩

/-- C5 (amended): `update(id, newRules)` followed by `get(id)` yields an
item whose `rules` equal `newRules` exactly and whose `triggeredKeys` is
literally unchanged; all other fields, the item count, the item order and
all other items are unchanged.  Fired/unfired state of a position is just
key membership in that unchanged ledger, so a position (new or old) is
fired exactly when its `(kind, index)` key was already present — a new
position whose key lingers from an earlier rule set starts fired. -/
theorem C5_update_roundtrip_amended (id : String) (rules : List Alert)
    (wl : List WatchItem) :
    WatchlistManager.get id (WatchlistManager.update id rules wl)
      = (WatchlistManager.get id wl).map (fun it => { it with alerts := rules })
    ∧ (WatchlistManager.update id rules wl).length = wl.length
    ∧ ∀ i : Nat, (WatchlistManager.update id rules wl)[i]? =
        if i = wl.findIdx (fun it => it.id = id)
        then (wl[i]?).map (fun it => { it with alerts := rules })
        else wl[i]? :=
  ⟨update_get id rules wl, update_length id rules wl, update_getElem id rules wl⟩

/-- C10: in every store reachable from the empty store by `add`,
`update`, `remove`, `resetTriggered` and polls, every item's
`triggeredKeys` is duplicate-free; one `checkAlerts` pass appends exactly
one key per notification it emits, and every appended key is new;
`add` creates items with an empty ledger and `resetTriggered` empties
every ledger. -/
theorem C10_ledger_invariant :
    (∀ (ops : List Op), ∀ it ∈ runOps ops, it.triggered.Nodup)
    ∧ (∀ (item : WatchItem) (s : Stock),
        (checkAlerts item s).1.triggered.length =
          item.triggered.length + (checkAlerts item s).2.length)
    ∧ (∀ (item : WatchItem) (s : Stock),
        ∀ k ∈ (checkAlerts item s).1.triggered.drop item.triggered.length,
          k ∉ item.triggered)
    ∧ (∀ (newId createdAt : String) (stock : StockRef)
        (alerts : Option (List Alert)) (wl : List WatchItem),
        (WatchlistManager.add newId createdAt stock alerts wl).2.triggered = [])
    ∧ (∀ (wl : List WatchItem), ∀ it ∈ WatchlistManager.resetTriggered wl,
        it.triggered = []) := by
  refine ⟨?_, ?_, ?_, ?_, ?_⟩
  · intro ops
    exact runOps_nodup_aux ops [] (by intro it hit; simp at hit)
  · intro item s
    rw [checkAlerts_triggered_eq, checkAlerts_notifs_eq]
    simp
  · intro item s k hk
    rw [checkAlerts_triggered_eq, List.drop_left] at hk
    exact firedPairs_keys_fresh item.alerts 0 item.triggered k hk
  · intro newId createdAt stock alerts wl
    rfl
  · intro wl it hit
    rcases List.mem_map.mp hit with ⟨it0, _, rfl⟩
    rfl

/-- C10 witness: an add followed by a triggering poll yields an item
with a duplicate-free ledger; the pass on the fresh item appends exactly
one key per notification it emitted. -/
theorem C10_ledger_invariant_witness :
    (⟨"w1", "2330", "X", [alertPA100], ["price_above_0"], "t0"⟩ : WatchItem).triggered.Nodup
    ∧ (checkAlerts itemPA100 (quote2330 100)).1.triggered.length =
        itemPA100.triggered.length + (checkAlerts itemPA100 (quote2330 100)).2.length :=
  ⟨C10_ledger_invariant.1
      [Op.add "w1" "t0" ⟨"2330", "X"⟩ (some [alertPA100]),
       Op.poll (Except.ok [quote2330 100])]
      ⟨"w1", "2330", "X", [alertPA100], ["price_above_0"], "t0"⟩ (by decide),
   C10_ledger_invariant.2.1 itemPA100 (quote2330 100)⟩
